import Mathlib

/-!
# Shallow embedding of the technical-indicator engine

Source: `src/pages/IndicatorsPage.jsx` of the Stock-Analytics-Website
repository.  Every indicator there is a pure function over a daily price
series.  We embed:

* dates as `Int` (the JS `Date` is only ever consumed through
  `getTime()`, i.e. as an integer timestamp; for the period-key
  aggregator we use `Nat` day numbers since 1970-01-01 and re-derive the
  calendar fields the JS `Date` getters would produce);
* prices and indicator values as `ℚ` (JS numbers; the algebraic claims
  under study are exact statements, so we work in exact arithmetic);
* `null` returns as `Option.none`;
* the JS `Map` built from an entry list (later entries overwrite
  earlier ones) as a last-match association lookup.

Definitions are translated clause by clause from the source functions
`calculateSMA`, `calculateEMA`, `calculateRSI`, `calculateMACD`,
`calculateBollingerBands`, `resampleData`, `calculateFibonacci`,
`isPivotLow` / `isPivotHigh`, `calculateGoldenDeathCross` and the
`getPeriodKey` helper of `calculatePeakPoints`.
-/

namespace StockIndicators

/-- A raw daily price point `{date, close}` as consumed by the
moving-average / oscillator functions. -/
structure PricePoint where
  date : Int
  close : ℚ
  deriving DecidableEq, Repr

instance : Inhabited PricePoint := ⟨⟨0, 0⟩⟩

/-- An indicator output point `{date, value}`. -/
structure IndicatorPoint where
  date : Int
  value : ℚ
  deriving DecidableEq, Repr

instance : Inhabited IndicatorPoint := ⟨⟨0, 0⟩⟩

/-- `new Map(list.map(e => [key e, val e])).get(ts)`: JS `Map`
construction lets later entries overwrite earlier ones, so lookup
returns the value of the *last* entry whose key matches. -/
def mapGet (l : List IndicatorPoint) (ts : Int) : Option ℚ :=
  l.foldl (fun acc e => if e.date = ts then some e.value else acc) none

/-- One iteration of the `calculateSMA` loop body: add the entering
close, drop the leaving close once `i >= period`, and emit a point once
`i >= period - 1` (JS arithmetic, so `i >= period - 1` is `period ≤ i+1`). -/
def smaStep (data : List PricePoint) (period : ℕ)
    (acc : ℚ × List IndicatorPoint) (i : ℕ) : ℚ × List IndicatorPoint :=
  let sum := acc.1 + (data.getD i default).close
  let sum := if period ≤ i then sum - (data.getD (i - period) default).close else sum
  if period ≤ i + 1 then
    (sum, acc.2 ++ [⟨(data.getD i default).date, sum / period⟩])
  else (sum, acc.2)

/-- `calculateSMA(data, period)` — sliding-window simple moving average.
Returns `none` when `data.length < period`. -/
def calculateSMA (data : List PricePoint) (period : ℕ) :
    Option (List IndicatorPoint) :=
  if data.length < period then none
  else some ((List.range data.length).foldl (smaStep data period) (0, [])).2

/-- The EMA recurrence applied down a list, emitting one point per input
point: `ema' = close*k + ema*(1-k)`. -/
def emaFold (k : ℚ) : List PricePoint → ℚ → List IndicatorPoint
  | [], _ => []
  | d :: ds, ema =>
    let e := d.close * k + ema * (1 - k)
    ⟨d.date, e⟩ :: emaFold k ds e

/-- `calculateEMA(data, period)`: seed with the SMA of the first
`period` closes, emit it at index `period-1`, then apply the recurrence
from index `period` on.  Returns `none` when `data.length < period`. -/
def calculateEMA (data : List PricePoint) (period : ℕ) :
    Option (List IndicatorPoint) :=
  if data.length < period then none
  else
    let k : ℚ := 2 / ((period : ℚ) + 1)
    let seed : ℚ := ((data.take period).foldl (fun s d => s + d.close) 0) / period
    some (match data.drop (period - 1) with
      | [] => []
      | d :: ds => ⟨d.date, seed⟩ :: emaFold k ds seed)

/-- The day-over-day change list of `calculateRSI`:
`changes[i-1] = data[i].close - data[i-1].close` for `i = 1 .. n-1`. -/
def priceChanges (data : List PricePoint) : List ℚ :=
  (data.tail.zip data).map (fun p => p.1.close - p.2.close)

/-- The seed phase of `calculateRSI`: accumulate `gains`/`losses` over
the first `period` changes (a change `> 0` adds to gains, otherwise its
negation adds to losses), then divide both by `period`. -/
def rsiSeed (period : ℕ) (changes : List ℚ) : ℚ × ℚ :=
  let gl := (changes.take period).foldl
    (fun (gl : ℚ × ℚ) c => if 0 < c then (gl.1 + c, gl.2) else (gl.1, gl.2 + (-c)))
    (0, 0)
  (gl.1 / period, gl.2 / period)

/-- One Wilder-smoothing update of `(avgGain, avgLoss)` in
`calculateRSI` (the JS `period - 1` is signed, hence the cast). -/
def rsiStep (period : ℕ) (s : ℚ × ℚ) (change : ℚ) : ℚ × ℚ :=
  if 0 < change then
    ((s.1 * ((period : ℚ) - 1) + change) / period, s.2 * ((period : ℚ) - 1) / period)
  else
    (s.1 * ((period : ℚ) - 1) / period, (s.2 * ((period : ℚ) - 1) - change) / period)

/-- The RSI value emitted from the updated `(avgGain, avgLoss)` state:
`rs = avgLoss === 0 ? 100 : avgGain / avgLoss`, `rsi = 100 - 100/(1+rs)`. -/
def rsiValue (s : ℚ × ℚ) : ℚ :=
  let rs := if s.2 = 0 then 100 else s.1 / s.2
  100 - 100 / (1 + rs)

/-- `calculateRSI(data, period)`. Returns `none` when
`data.length < period + 1`; otherwise one point per change index
`i = period .. changes.length - 1`, dated `data[i+1].date`. -/
def calculateRSI (data : List PricePoint) (period : ℕ) :
    Option (List IndicatorPoint) :=
  if data.length < period + 1 then none
  else
    let changes := priceChanges data
    let seed := rsiSeed period changes
    let rest := (changes.drop period).zip (data.drop (period + 1))
    some (rest.foldl (fun acc cd =>
      let s := rsiStep period acc.1 cd.1
      (s, acc.2 ++ [⟨cd.2.date, rsiValue s⟩])) (seed, ([] : List IndicatorPoint))).2

/-- The `{macdLine, signalLine, histogram}` record of `calculateMACD`. -/
structure MacdResult where
  macdLine : List IndicatorPoint
  signalLine : List IndicatorPoint
  histogram : List IndicatorPoint
  deriving DecidableEq, Repr

/-- `calculateMACD(data, fast, slow, sig)`.  `macdLine` is built at the
dates of `data[slow-1 ..]` from the two EMA maps (`?? 0` both lookups);
`signalLine` is the EMA of `macdLine` re-keyed as closes; `histogram`
subtracts the signal-map lookup (`?? 0`) at every `macdLine` date. -/
def calculateMACD (data : List PricePoint) (fast slow sig : ℕ) :
    Option MacdResult :=
  if data.length < slow + sig then none
  else match calculateEMA data fast, calculateEMA data slow with
    | some emaFast, some emaSlow =>
      let macdLine := (data.drop (slow - 1)).map (fun d =>
        (⟨d.date, ((mapGet emaFast d.date).getD 0) - ((mapGet emaSlow d.date).getD 0)⟩ :
          IndicatorPoint))
      match calculateEMA (macdLine.map (fun m => (⟨m.date, m.value⟩ : PricePoint))) sig with
      | some signalLine =>
        let histogram := macdLine.map (fun ml =>
          (⟨ml.date, ml.value - ((mapGet signalLine ml.date).getD 0)⟩ : IndicatorPoint))
        some ⟨macdLine, signalLine, histogram⟩
      | none => none
    | _, _ => none

/-- A Bollinger-band output point `{date, upper, middle, lower}`. -/
structure BBPoint where
  date : Int
  upper : ℚ
  middle : ℚ
  lower : ℚ
  deriving DecidableEq, Repr

instance : Inhabited BBPoint := ⟨⟨0, 0, 0, 0⟩⟩

/-- The `calculateSD` helper of `calculateBollingerBands`:
`sqrt(Σ(v-mean)²/len)`.  The square root has no exact rational
counterpart (JS computes it in floating point), so the embedding is
parametric in the square-root function `sqrtFn`; every algebraic claim
about the bands holds for an arbitrary `sqrtFn`. -/
def calculateSD (sqrtFn : ℚ → ℚ) (arr : List ℚ) : ℚ :=
  let mean := arr.foldl (· + ·) (0 : ℚ) / (arr.length : ℚ)
  sqrtFn ((arr.foldl (fun s v => s + (v - mean) ^ 2) (0 : ℚ)) / (arr.length : ℚ))

/-- `calculateBollingerBands(data, period, devs)`: for each
`i = period-1 .. n-1`, `slice = data.slice(i-period+1, i+1)` closes,
`middle = Σ slice / period`, `sd = calculateSD slice`,
bands `middle ± devs·sd`.  Returns `none` when `data.length < period`. -/
def calculateBollingerBands (sqrtFn : ℚ → ℚ) (data : List PricePoint)
    (period : ℕ) (devs : ℚ) : Option (List BBPoint) :=
  if data.length < period then none
  else some ((List.range' (period - 1) (data.length - (period - 1))).map (fun i =>
    let slice := ((data.drop (i + 1 - period)).take period).map (·.close)
    let middle := slice.foldl (· + ·) (0 : ℚ) / (period : ℚ)
    let sd := calculateSD sqrtFn slice
    (⟨(data.getD i default).date, middle + devs * sd, middle, middle - devs * sd⟩ :
      BBPoint)))

/-- `resampleData(data, maxPoints)`: unchanged when
`length ≤ maxPoints`; otherwise `step = ceil(length/maxPoints)` and the
filter keeps index `i` iff `i % step === 0 || i === length - 1`. -/
def resampleData {α : Type} (data : List α) (maxPoints : ℕ) : List α :=
  if data.length ≤ maxPoints then data
  else
    let step := (data.length + maxPoints - 1) / maxPoints
    (data.enum.filter (fun p => p.1 % step == 0 || p.1 == data.length - 1)).map
      Prod.snd

/-- A raw price point whose `close` may be non-numeric in JS
(`calculateFibonacci` filters `typeof v === 'number'`); a non-numeric
close is embedded as `none`. -/
structure RawPoint where
  date : Int
  close : Option ℚ
  deriving DecidableEq, Repr

/-- One Fibonacci retracement level `{level, value, color}`. -/
structure FibLevel where
  level : String
  value : ℚ
  color : String
  deriving DecidableEq, Repr

/-- The `{high, low, levels}` record of `calculateFibonacci`. -/
structure FibResult where
  high : ℚ
  low : ℚ
  levels : List FibLevel
  deriving DecidableEq, Repr

/-- `calculateFibonacci(data)`: numeric closes only; `high`/`low` are
`Math.max`/`Math.min` over them (embedded as folds over the nonempty
list); the seven levels are listed exactly as in the source. -/
def calculateFibonacci (data : List RawPoint) : Option FibResult :=
  if data.length < 2 then none
  else
    let closes := (data.map (·.close)).filterMap id
    if closes.length < 2 then none
    else
      match closes with
      | [] => none
      | c :: rest =>
        let high := rest.foldl max c
        let low := rest.foldl min c
        let diff := high - low
        some ⟨high, low,
          [⟨"100% (Low)", low, "#ff5252"⟩,
           ⟨"78.6%", high - diff * (0.786 : ℚ), "#ffb74d"⟩,
           ⟨"61.8%", high - diff * (0.618 : ℚ), "#ffd740"⟩,
           ⟨"50%", high - diff * (0.5 : ℚ), "#aeea00"⟩,
           ⟨"38.2%", high - diff * (0.382 : ℚ), "#ffd740"⟩,
           ⟨"23.6%", high - diff * (0.236 : ℚ), "#ffb74d"⟩,
           ⟨"0% (High)", high, "#448aff"⟩]⟩

/-- `isPivotLow(arr, i, lbL, lbR)` from `calculateDivergence`: out of
range ⇒ `false`; a left neighbour `arr[i-j] < arr[i]` ⇒ `false`; a
right neighbour `arr[i+j] <= arr[i]` ⇒ `false`; else `true`. -/
def isPivotLow (arr : List ℚ) (i lbL lbR : ℕ) : Bool :=
  if i < lbL ∨ arr.length ≤ i + lbR then false
  else
    let val := arr.getD i 0
    ((List.range lbL).all (fun j => !(decide (arr.getD (i - (j + 1)) 0 < val)))) &&
    ((List.range lbR).all (fun j => !(decide (arr.getD (i + (j + 1)) 0 ≤ val))))

/-- `isPivotHigh(arr, i, lbL, lbR)`: mirror of `isPivotLow`
(`arr[i-j] > arr[i]` ⇒ `false` on the left, `arr[i+j] >= arr[i]` ⇒
`false` on the right). -/
def isPivotHigh (arr : List ℚ) (i lbL lbR : ℕ) : Bool :=
  if i < lbL ∨ arr.length ≤ i + lbR then false
  else
    let val := arr.getD i 0
    ((List.range lbL).all (fun j => !(decide (val < arr.getD (i - (j + 1)) 0)))) &&
    ((List.range lbR).all (fun j => !(decide (val ≤ arr.getD (i + (j + 1)) 0))))

/-- A golden/death-cross signal `{date, type, price}`. -/
structure Signal where
  date : Int
  type : String
  price : ℚ
  deriving DecidableEq, Repr

/-- A zone `{start, end, type}` of `calculateGoldenDeathCross`; the
source field `end` is a Lean keyword and is renamed `endDate`.  The
source pushes the possibly-null `currentZoneType`, hence
`Option String`. -/
structure Zone where
  start : Int
  endDate : Int
  type : Option String
  deriving DecidableEq, Repr

/-- The loop state of `calculateGoldenDeathCross`. -/
structure CrossState where
  signals : List Signal
  zones : List Zone
  zoneStart : Option Int
  currentZoneType : Option String
  deriving DecidableEq, Repr

/-- One iteration of the `calculateGoldenDeathCross` loop for the pair
`(data[i-1], data[i])`: skip when any of the four SMA lookups is null;
detect a strict crossover; on a signal close the open zone (if any) and
open a new one; otherwise initialise the first zone from the raw
`sma50 > sma200` relation. -/
def crossStep (sma50List sma200List : List IndicatorPoint)
    (s : CrossState) (pc : PricePoint × PricePoint) : CrossState :=
  let prev := pc.1
  let cur := pc.2
  match mapGet sma50List cur.date, mapGet sma200List cur.date,
        mapGet sma50List prev.date, mapGet sma200List prev.date with
  | some sma50, some sma200, some prevSma50, some prevSma200 =>
    let isGolden := sma200 < sma50
    let signalType : Option String :=
      if prevSma50 ≤ prevSma200 ∧ sma200 < sma50 then some "golden"
      else if prevSma200 ≤ prevSma50 ∧ sma50 < sma200 then some "death"
      else none
    match signalType with
    | some t =>
      { signals := s.signals ++ [⟨cur.date, t, cur.close⟩]
        zones := s.zones ++ (match s.zoneStart with
          | some zs => [⟨zs, cur.date, s.currentZoneType⟩]
          | none => [])
        zoneStart := some cur.date
        currentZoneType := some t }
    | none =>
      match s.zoneStart with
      | none =>
        { s with zoneStart := some cur.date
                 currentZoneType := some (if isGolden then "golden" else "death") }
      | some _ => s
  | _, _, _, _ => s

/-- `calculateGoldenDeathCross(data, sma50List, sma200List)`: fold the
step over consecutive pairs, then close the final zone at the last
available date when a zone is open. -/
def calculateGoldenDeathCross (data : List PricePoint)
    (sma50List sma200List : List IndicatorPoint) : List Signal × List Zone :=
  let s := (data.zip data.tail).foldl (crossStep sma50List sma200List)
    ⟨[], [], none, none⟩
  match s.zoneStart, data.getLast? with
  | some zs, some last => (s.signals, s.zones ++ [⟨zs, last.date, s.currentZoneType⟩])
  | _, _ => (s.signals, s.zones)

/-! ### Calendar arithmetic for `getPeriodKey`

`calculatePeakPoints` keys each point by
`${year}-W${Math.ceil((dayOfYear + jan1.getDay() + 1) / 7)}` in the
`'week'` case.  We embed a date as its day number since 1970-01-01
(UTC midnight) and recover the `Date` getters with the standard
Gregorian era decomposition. -/

/-- `d.getFullYear()` for day number `n` (days since 1970-01-01). -/
def yearOf (n : ℕ) : ℕ :=
  let z := n + 719468
  let era := z / 146097
  let doe := z % 146097
  let yoe := (doe - doe / 1460 + doe / 36524 - doe / 146096) / 365
  let y := yoe + era * 400
  let doy := doe - (365 * yoe + yoe / 4 - yoe / 100)
  let mp := (5 * doy + 2) / 153
  let m := if mp < 10 then mp + 3 else mp - 9
  if m ≤ 2 then y + 1 else y

/-- Day number of `new Date(y, 0, 1)` (January 1 of year `y`), for
years `≥ 1970` so the count is nonnegative. -/
def jan1 (y : ℕ) : ℕ :=
  let yp := y - 1
  let era := yp / 400
  let yoe := yp % 400
  let doe := yoe * 365 + yoe / 4 - yoe / 100 + 306
  era * 146097 + doe - 719468

/-- `d.getDay()` — day of week, 0 = Sunday; day 0 (1970-01-01) was a
Thursday. -/
def weekday (n : ℕ) : ℕ := (n + 4) % 7

/-- The `'week'` branch of `getPeriodKey`.  The JS key is the string
`${year}-W${weekNum}`; the `-W` separator makes the string and the
pair `(year, weekNum)` mutually determined, so the key is embedded as
that pair.  `millis / 86400000` is the 0-based day of year and
`Math.ceil(x / 7)` of a positive integer `x` is `(x + 6) / 7`. -/
def getPeriodKeyWeek (n : ℕ) : ℕ × ℕ :=
  let y := yearOf n
  let doy := n - jan1 y
  (y, (doy + weekday (jan1 y) + 1 + 6) / 7)

/-- Spec-side definition, from the spec's words ("ISO-week key"): ISO
8601 weeks run Monday through Sunday; day 0 (1970-01-01) is a Thursday,
so the Monday-aligned 7-day blocks are `⌊(n + 3) / 7⌋`, and two day
numbers fall in the same ISO week iff those blocks agree. -/
def sameIsoWeek (a b : ℕ) : Prop := (a + 3) / 7 = (b + 3) / 7

instance (a b : ℕ) : Decidable (sameIsoWeek a b) := by
  unfold sameIsoWeek; infer_instance

/-! ### Helper lemmas: folded max / min over a list -/

theorem le_foldl_max (l : List ℚ) : ∀ a : ℚ, a ≤ l.foldl max a := by
  induction l with
  | nil => intro a; exact le_refl a
  | cons b t ih => intro a; exact le_trans (le_max_left a b) (ih (max a b))

theorem mem_le_foldl_max (l : List ℚ) : ∀ a x : ℚ, x ∈ l → x ≤ l.foldl max a := by
  induction l with
  | nil => intro a x hx; cases hx
  | cons b t ih =>
    intro a x hx
    rcases List.mem_cons.mp hx with h | h
    · subst h; exact le_trans (le_max_right a x) (le_foldl_max t (max a x))
    · exact ih (max a b) x h

theorem foldl_max_mem (l : List ℚ) : ∀ a : ℚ, l.foldl max a = a ∨ l.foldl max a ∈ l := by
  induction l with
  | nil => intro a; exact Or.inl rfl
  | cons b t ih =>
    intro a
    rcases ih (max a b) with h | h
    · rcases max_choice a b with hm | hm
      · left; rw [List.foldl_cons, h, hm]
      · right; rw [List.foldl_cons, h, hm]; exact List.mem_cons_self b t
    · right; exact List.mem_cons_of_mem b h

theorem foldl_min_le (l : List ℚ) : ∀ a : ℚ, l.foldl min a ≤ a := by
  induction l with
  | nil => intro a; exact le_refl a
  | cons b t ih => intro a; exact le_trans (ih (min a b)) (min_le_left a b)

theorem foldl_min_le_mem (l : List ℚ) : ∀ a x : ℚ, x ∈ l → l.foldl min a ≤ x := by
  induction l with
  | nil => intro a x hx; cases hx
  | cons b t ih =>
    intro a x hx
    rcases List.mem_cons.mp hx with h | h
    · subst h; exact le_trans (foldl_min_le t (min a x)) (min_le_right a x)
    · exact ih (min a b) x h

theorem foldl_min_mem (l : List ℚ) : ∀ a : ℚ, l.foldl min a = a ∨ l.foldl min a ∈ l := by
  induction l with
  | nil => intro a; exact Or.inl rfl
  | cons b t ih =>
    intro a
    rcases ih (min a b) with h | h
    · rcases min_choice a b with hm | hm
      · left; rw [List.foldl_cons, h, hm]
      · right; rw [List.foldl_cons, h, hm]; exact List.mem_cons_self b t
    · right; exact List.mem_cons_of_mem b h

/-! ### C9 — Fibonacci retracement levels -/

/-- C9.  For every input with at least 2 numeric closes,
`calculateFibonacci` succeeds; its levels sequence is monotonically
decreasing in value read from the `0% (High)` entry to the
`100% (Low)` entry; the first entry is labelled `100% (Low)` and its
value is exactly the minimum numeric close of the window; the last
entry is labelled `0% (High)` and its value is exactly the maximum
numeric close of the window. -/
theorem fibonacci_levels_monotone_and_exact (data : List RawPoint)
    (h2 : 2 ≤ ((data.map (fun p => p.close)).filterMap id).length) :
    ∃ r, calculateFibonacci data = some r ∧
      List.Chain' (fun a b => b.value ≤ a.value) r.levels.reverse ∧
      r.levels.head? = some ⟨"100% (Low)", r.low, "#ff5252"⟩ ∧
      r.low ∈ (data.map (fun p => p.close)).filterMap id ∧
      (∀ x ∈ (data.map (fun p => p.close)).filterMap id, r.low ≤ x) ∧
      r.levels.getLast? = some ⟨"0% (High)", r.high, "#448aff"⟩ ∧
      r.high ∈ (data.map (fun p => p.close)).filterMap id ∧
      (∀ x ∈ (data.map (fun p => p.close)).filterMap id, x ≤ r.high) := by
  have hlen : 2 ≤ data.length := by
    calc 2 ≤ ((data.map (fun p => p.close)).filterMap id).length := h2
    _ ≤ (data.map (fun p => p.close)).length := List.length_filterMap_le _ _
    _ = data.length := List.length_map _ _
  obtain ⟨c, rest, hcr⟩ :
      ∃ c rest, (data.map (fun p => p.close)).filterMap id = c :: rest := by
    cases h : (data.map (fun p => p.close)).filterMap id with
    | nil => rw [h] at h2; simp at h2
    | cons c rest => exact ⟨c, rest, rfl⟩
  have hlow : ∀ x ∈ c :: rest, rest.foldl min c ≤ x := by
    intro x hx
    rcases List.mem_cons.mp hx with h | h
    · subst h; exact foldl_min_le rest x
    · exact foldl_min_le_mem rest c x h
  have hhigh : ∀ x ∈ c :: rest, x ≤ rest.foldl max c := by
    intro x hx
    rcases List.mem_cons.mp hx with h | h
    · subst h; exact le_foldl_max rest x
    · exact mem_le_foldl_max rest c x h
  have hlowmem : rest.foldl min c ∈ c :: rest := by
    rcases foldl_min_mem rest c with h | h
    · rw [h]; exact List.mem_cons_self c rest
    · exact List.mem_cons_of_mem c h
  have hhighmem : rest.foldl max c ∈ c :: rest := by
    rcases foldl_max_mem rest c with h | h
    · rw [h]; exact List.mem_cons_self c rest
    · exact List.mem_cons_of_mem c h
  have hle : rest.foldl min c ≤ rest.foldl max c :=
    le_trans (foldl_min_le rest c) (le_foldl_max rest c)
  set hi := rest.foldl max c with hhi
  set lo := rest.foldl min c with hlo
  have hEq : calculateFibonacci data = some ⟨hi, lo,
      [⟨"100% (Low)", lo, "#ff5252"⟩,
       ⟨"78.6%", hi - (hi - lo) * (0.786 : ℚ), "#ffb74d"⟩,
       ⟨"61.8%", hi - (hi - lo) * (0.618 : ℚ), "#ffd740"⟩,
       ⟨"50%", hi - (hi - lo) * (0.5 : ℚ), "#aeea00"⟩,
       ⟨"38.2%", hi - (hi - lo) * (0.382 : ℚ), "#ffd740"⟩,
       ⟨"23.6%", hi - (hi - lo) * (0.236 : ℚ), "#ffb74d"⟩,
       ⟨"0% (High)", hi, "#448aff"⟩]⟩ := by
    unfold calculateFibonacci
    rw [if_neg (show ¬ data.length < 2 by omega), hcr]
    rw [if_neg (show ¬ (c :: rest).length < 2 by rw [hcr] at h2; simpa using h2)]
  refine ⟨_, hEq, ?_, ?_, ?_, ?_, ?_, ?_, ?_⟩
  · simp only [List.reverse_cons, List.reverse_nil, List.nil_append, List.cons_append,
      List.chain'_cons, List.chain'_singleton, and_true]
    refine ⟨by linarith, by linarith, by linarith, by linarith, by linarith, by linarith⟩
  · rfl
  · rw [hcr]; exact hlowmem
  · rw [hcr]; exact hlow
  · rfl
  · rw [hcr]; exact hhighmem
  · rw [hcr]; exact hhigh

/-- Witness for C9 at the concrete input
`[{date 0, close 1}, {date 1, close null}, {date 2, close 3}]`. -/
theorem fibonacci_levels_monotone_and_exact_witness :
    (2 ≤ ((([⟨0, some 1⟩, ⟨1, none⟩, ⟨2, some 3⟩] : List RawPoint).map
        (fun p => p.close)).filterMap id).length) ∧
    (∃ r, calculateFibonacci [⟨0, some 1⟩, ⟨1, none⟩, ⟨2, some 3⟩] = some r ∧
      List.Chain' (fun a b => b.value ≤ a.value) r.levels.reverse ∧
      r.levels.head? = some ⟨"100% (Low)", r.low, "#ff5252"⟩ ∧
      r.low ∈ ((([⟨0, some 1⟩, ⟨1, none⟩, ⟨2, some 3⟩] : List RawPoint).map
        (fun p => p.close)).filterMap id) ∧
      (∀ x ∈ ((([⟨0, some 1⟩, ⟨1, none⟩, ⟨2, some 3⟩] : List RawPoint).map
        (fun p => p.close)).filterMap id), r.low ≤ x) ∧
      r.levels.getLast? = some ⟨"0% (High)", r.high, "#448aff"⟩ ∧
      r.high ∈ ((([⟨0, some 1⟩, ⟨1, none⟩, ⟨2, some 3⟩] : List RawPoint).map
        (fun p => p.close)).filterMap id) ∧
      (∀ x ∈ ((([⟨0, some 1⟩, ⟨1, none⟩, ⟨2, some 3⟩] : List RawPoint).map
        (fun p => p.close)).filterMap id), x ≤ r.high)) :=
  ⟨by decide, fibonacci_levels_monotone_and_exact _ (by decide)⟩

/-! ### C5 — pivot detection of the divergence detector -/

/-- C5.  For `lookbackLeft ≤ i < n − lookbackRight`, index `i` is
detected as an oscillator pivot low iff every left neighbour within
`lookbackLeft` bars is `≥` the value at `i` and every right neighbour
within `lookbackRight` bars is strictly greater; a pivot high is the
exact mirror (left `≤`, right strictly less). -/
theorem pivot_asymmetric_characterization (arr : List ℚ) (i lbL lbR : ℕ)
    (hL : lbL ≤ i) (hR : i + lbR < arr.length) :
    (isPivotLow arr i lbL lbR = true ↔
      ((∀ j, 1 ≤ j → j ≤ lbL → arr.getD i 0 ≤ arr.getD (i - j) 0) ∧
       (∀ j, 1 ≤ j → j ≤ lbR → arr.getD i 0 < arr.getD (i + j) 0))) ∧
    (isPivotHigh arr i lbL lbR = true ↔
      ((∀ j, 1 ≤ j → j ≤ lbL → arr.getD (i - j) 0 ≤ arr.getD i 0) ∧
       (∀ j, 1 ≤ j → j ≤ lbR → arr.getD (i + j) 0 < arr.getD i 0))) := by
  unfold isPivotLow isPivotHigh
  rw [if_neg (by omega), if_neg (by omega)]
  simp only [Bool.and_eq_true, List.all_eq_true, List.mem_range, Bool.not_eq_true',
    decide_eq_false_iff_not, not_lt, not_le]
  constructor
  · constructor
    · rintro ⟨hl, hr⟩
      constructor
      · intro j hj1 hj2
        have := hl (j - 1) (by omega)
        rwa [show j - 1 + 1 = j by omega] at this
      · intro j hj1 hj2
        have := hr (j - 1) (by omega)
        rwa [show j - 1 + 1 = j by omega] at this
    · rintro ⟨hl, hr⟩
      exact ⟨fun j hj => hl (j + 1) (by omega) (by omega),
             fun j hj => hr (j + 1) (by omega) (by omega)⟩
  · constructor
    · rintro ⟨hl, hr⟩
      constructor
      · intro j hj1 hj2
        have := hl (j - 1) (by omega)
        rwa [show j - 1 + 1 = j by omega] at this
      · intro j hj1 hj2
        have := hr (j - 1) (by omega)
        rwa [show j - 1 + 1 = j by omega] at this
    · rintro ⟨hl, hr⟩
      exact ⟨fun j hj => hl (j + 1) (by omega) (by omega),
             fun j hj => hr (j + 1) (by omega) (by omega)⟩

/-- Witness for C5 at `arr = [5, 1, 5]`, `i = 1`, lookbacks `1`/`1`. -/
theorem pivot_asymmetric_characterization_witness :
    ((1 : ℕ) ≤ 1 ∧ 1 + 1 < ([5, 1, 5] : List ℚ).length) ∧
    ((isPivotLow [5, 1, 5] 1 1 1 = true ↔
      ((∀ j, 1 ≤ j → j ≤ 1 → ([5, 1, 5] : List ℚ).getD 1 0 ≤ ([5, 1, 5] : List ℚ).getD (1 - j) 0) ∧
       (∀ j, 1 ≤ j → j ≤ 1 → ([5, 1, 5] : List ℚ).getD 1 0 < ([5, 1, 5] : List ℚ).getD (1 + j) 0))) ∧
     (isPivotHigh [5, 1, 5] 1 1 1 = true ↔
      ((∀ j, 1 ≤ j → j ≤ 1 → ([5, 1, 5] : List ℚ).getD (1 - j) 0 ≤ ([5, 1, 5] : List ℚ).getD 1 0) ∧
       (∀ j, 1 ≤ j → j ≤ 1 → ([5, 1, 5] : List ℚ).getD (1 + j) 0 < ([5, 1, 5] : List ℚ).getD 1 0)))) :=
  ⟨⟨le_refl 1, by decide⟩, pivot_asymmetric_characterization [5, 1, 5] 1 1 1 (le_refl 1) (by decide)⟩

/-! ### C3 — the weekly period key -/

/-- C3 counterexample.  Day 18627 is 2020-12-31 (a Thursday) and day
18628 is 2021-01-01 (a Friday): the two dates fall in the same ISO week
(2020-W53 runs Monday 2020-12-28 through Sunday 2021-01-03), yet
`getPeriodKey` assigns them the different weekly buckets `2020-W53` and
`2021-W1`, so same-bucket is not equivalent to same-ISO-week. -/
theorem weekKey_not_iso_counterexample :
    sameIsoWeek 18627 18628 ∧ getPeriodKeyWeek 18627 ≠ getPeriodKeyWeek 18628 := by
  constructor
  · decide
  · decide

/-- C3 amended.  Two day numbers (whose civil year decodes
consistently, i.e. `jan1 (yearOf n) ≤ n`) receive the same weekly
bucket key iff they fall in the same *calendar year* and the same
*Sunday-aligned* week (`(n + 4) / 7` agree; day 0 was a Thursday, so
Sundays start at `n ≡ 3 (mod 7)`) — not the same ISO week. -/
theorem weekKey_same_bucket_iff (n1 n2 : ℕ)
    (h1 : jan1 (yearOf n1) ≤ n1) (h2 : jan1 (yearOf n2) ≤ n2) :
    getPeriodKeyWeek n1 = getPeriodKeyWeek n2 ↔
      (yearOf n1 = yearOf n2 ∧ (n1 + 4) / 7 = (n2 + 4) / 7) := by
  have e1 : getPeriodKeyWeek n1 =
      (yearOf n1, (n1 - jan1 (yearOf n1) + (jan1 (yearOf n1) + 4) % 7 + 1 + 6) / 7) := rfl
  have e2 : getPeriodKeyWeek n2 =
      (yearOf n2, (n2 - jan1 (yearOf n2) + (jan1 (yearOf n2) + 4) % 7 + 1 + 6) / 7) := rfl
  rw [e1, e2, Prod.mk.injEq]
  constructor
  · rintro ⟨hy, hw⟩
    have hj : jan1 (yearOf n1) = jan1 (yearOf n2) := by rw [hy]
    refine ⟨hy, ?_⟩
    rw [← hj] at hw h2
    omega
  · rintro ⟨hy, hw⟩
    have hj : jan1 (yearOf n1) = jan1 (yearOf n2) := by rw [hy]
    refine ⟨hy, ?_⟩
    rw [← hj] at h2 ⊢
    omega

/-- Witness for the amended C3 at days 18628 (Friday 2021-01-01) and
18629 (Saturday 2021-01-02): same year, same Sunday-aligned week, and
indeed the same bucket key. -/
theorem weekKey_same_bucket_iff_witness :
    (jan1 (yearOf 18628) ≤ 18628 ∧ jan1 (yearOf 18629) ≤ 18629) ∧
    (getPeriodKeyWeek 18628 = getPeriodKeyWeek 18629 ↔
      (yearOf 18628 = yearOf 18629 ∧ (18628 + 4) / 7 = (18629 + 4) / 7)) :=
  ⟨⟨by decide, by decide⟩, weekKey_same_bucket_iff 18628 18629 (by decide) (by decide)⟩

/-! ### C10 — the resampler -/

theorem countP_or_le {α : Type} (p q : α → Bool) (l : List α) :
    l.countP (fun x => p x || q x) ≤ l.countP p + l.countP q := by
  induction l with
  | nil => simp
  | cons a t ih =>
    by_cases hp : p a <;> by_cases hq : q a <;>
      simp only [List.countP_cons, hp, hq, Bool.or_self, Bool.or_true, Bool.true_or,
        Bool.or_false, Bool.false_or, if_true, if_false] <;> omega

theorem countP_mod_range (step : ℕ) (hs : 1 ≤ step) :
    ∀ n : ℕ, (List.range n).countP (fun i => i % step == 0) = (n + step - 1) / step := by
  intro n
  induction n with
  | zero =>
    simp only [List.range_zero, List.countP_nil]
    exact (Nat.div_eq_of_lt (by omega)).symm
  | succ n ih =>
    rw [List.range_succ, List.countP_append, ih]
    have hsingle : List.countP (fun i => i % step == 0) [n] =
        if step ∣ n then 1 else 0 := by
      simp only [List.countP_cons, List.countP_nil, Nat.zero_add, beq_iff_eq,
        Nat.dvd_iff_mod_eq_zero]
    rw [hsingle]
    have h1 : n + 1 + step - 1 = (n + step - 1) + 1 := by omega
    rw [h1, Nat.succ_div]
    have h2 : (n + step - 1) + 1 = n + step := by omega
    rw [h2]
    have h3 : step ∣ n + step ↔ step ∣ n := Nat.dvd_add_self_right
    simp only [h3]

theorem countP_eq_last_range (n k : ℕ) :
    (List.range n).countP (fun i => i == k) = if k < n then 1 else 0 := by
  induction n with
  | zero => simp
  | succ n ih =>
    rw [List.range_succ, List.countP_append, ih]
    simp only [List.countP_cons, List.countP_nil, Nat.zero_add, beq_iff_eq]
    split_ifs <;> omega

theorem len_le_ceil_mul (len m : ℕ) (hm : 1 ≤ m) : len ≤ ((len + m - 1) / m) * m := by
  have hmod := Nat.div_add_mod (len + m - 1) m
  have hlt : (len + m - 1) % m < m := Nat.mod_lt _ (by omega)
  rw [mul_comm]
  generalize hR : (len + m - 1) % m = R at hmod hlt
  generalize hP : m * ((len + m - 1) / m) = P at hmod ⊢
  omega

/-- C10.  For `maxPoints ≥ 1` and `length > maxPoints`, the resampler
returns an order-preserving subsequence of the input that keeps the
first and the last element and has at most `maxPoints + 1` elements;
the bound `maxPoints + 1` is attained (e.g. four points resampled to
`maxPoints = 2` keep three), i.e. the output can exceed `maxPoints`. -/
theorem resample_sublist_ends_bound {α : Type} (data : List α) (maxPoints : ℕ)
    (h1 : 1 ≤ maxPoints) (h2 : maxPoints < data.length) :
    (resampleData data maxPoints).Sublist data ∧
    (resampleData data maxPoints).head? = data.head? ∧
    (resampleData data maxPoints).getLast? = data.getLast? ∧
    (resampleData data maxPoints).length ≤ maxPoints + 1 ∧
    (resampleData [0, 1, 2, 3] 2).length = 2 + 1 := by
  have hres : resampleData data maxPoints = (data.enum.filter
      (fun pr => pr.1 % ((data.length + maxPoints - 1) / maxPoints) == 0 ||
        pr.1 == data.length - 1)).map Prod.snd := by
    unfold resampleData
    rw [if_neg (by omega)]
  have hstep1 : 1 ≤ (data.length + maxPoints - 1) / maxPoints := by
    rw [Nat.one_le_div_iff (by omega)]
    omega
  refine ⟨?_, ?_, ?_, ?_, by decide⟩
  · rw [hres]
    have hsub := (List.filter_sublist (l := data.enum)
      (p := fun pr => pr.1 % ((data.length + maxPoints - 1) / maxPoints) == 0 ||
        pr.1 == data.length - 1)).map Prod.snd
    rwa [List.enum_map_snd] at hsub
  · cases data with
    | nil => simp at h2
    | cons a t =>
      rw [hres, List.enum_cons, List.filter_cons_of_pos (by simp)]
      simp
  · have hne : data ≠ [] := by
      intro h; rw [h] at h2; simp at h2
    obtain ⟨ys, x, hyx⟩ : ∃ ys x, data = ys ++ [x] :=
      ⟨data.dropLast, data.getLast hne, (List.dropLast_append_getLast hne).symm⟩
    rw [hres, hyx, List.enum_append, List.enumFrom_cons, List.enumFrom_nil,
      List.filter_append, List.map_append, List.filter_cons_of_pos (by simp)]
    simp [List.getLast?_concat]
  · rw [hres, List.length_map, ← List.countP_eq_length_filter]
    have hmul := len_le_ceil_mul data.length maxPoints (by omega)
    have hkey : data.enum.countP
        (fun pr => pr.1 % ((data.length + maxPoints - 1) / maxPoints) == 0 ||
          pr.1 == data.length - 1) =
        (List.range data.length).countP
        (fun i => i % ((data.length + maxPoints - 1) / maxPoints) == 0 ||
          i == data.length - 1) := by
      rw [← List.enum_map_fst data, List.countP_map]
      rfl
    rw [hkey]
    have hb := countP_or_le
      (fun i => i % ((data.length + maxPoints - 1) / maxPoints) == 0)
      (fun i => i == data.length - 1) (List.range data.length)
    rw [countP_mod_range _ hstep1 data.length, countP_eq_last_range] at hb
    rw [if_pos (by omega)] at hb
    refine le_trans hb ?_
    have hle : (data.length + ((data.length + maxPoints - 1) / maxPoints) - 1) /
        ((data.length + maxPoints - 1) / maxPoints) ≤ maxPoints := by
      rw [Nat.div_le_iff_le_mul_add_pred (by omega)]
      generalize hS : (data.length + maxPoints - 1) / maxPoints = S at hmul ⊢
      generalize hQ : S * maxPoints = Q at hmul ⊢
      omega
    exact Nat.add_le_add_right hle 1

/-- Witness for C10 at `data = [10, 20, 30, 40]`, `maxPoints = 2`. -/
theorem resample_sublist_ends_bound_witness :
    ((1 : ℕ) ≤ 2 ∧ 2 < ([10, 20, 30, 40] : List ℕ).length) ∧
    ((resampleData [10, 20, 30, 40] 2).Sublist [10, 20, 30, 40] ∧
     (resampleData [10, 20, 30, 40] 2).head? = ([10, 20, 30, 40] : List ℕ).head? ∧
     (resampleData [10, 20, 30, 40] 2).getLast? = ([10, 20, 30, 40] : List ℕ).getLast? ∧
     (resampleData [10, 20, 30, 40] 2).length ≤ 2 + 1 ∧
     (resampleData [0, 1, 2, 3] 2).length = 2 + 1) :=
  ⟨⟨by decide, by decide⟩,
    resample_sublist_ends_bound [10, 20, 30, 40] 2 (by decide) (by decide)⟩

/-! ### C6 — SMA sliding window -/

/-- Sum of the closes of the window of `period` points starting at
input index `k` (the trailing window of the output point `k`). -/
def windowSum (data : List PricePoint) (k period : ℕ) : ℚ :=
  (((data.drop k).take period).map (fun d => d.close)).sum

/-- The running sum held by the `calculateSMA` loop after processing
indices `0 .. m-1`: the closes of the last `min period m` of them. -/
def partialWindowSum (data : List PricePoint) (period m : ℕ) : ℚ :=
  (((data.drop (m - period)).take (min period m)).map (fun d => d.close)).sum

theorem partialWindowSum_succ (data : List PricePoint) (period : ℕ)
    (hp : 1 ≤ period) (m : ℕ) (hm : m < data.length) :
    partialWindowSum data period (m + 1) =
      if period ≤ m then
        partialWindowSum data period m + (data.getD m default).close
          - (data.getD (m - period) default).close
      else partialWindowSum data period m + (data.getD m default).close := by
  have hgetD : ∀ i (hi : i < data.length), data.getD i default = data[i] :=
    fun i hi => List.getD_eq_getElem data default hi
  by_cases hpm : period ≤ m
  · rw [if_pos hpm]
    obtain ⟨q, hq⟩ : ∃ q, period = q + 1 := ⟨period - 1, by omega⟩
    subst hq
    have hmp : m - (q + 1) < data.length := by omega
    have hLHS : partialWindowSum data (q + 1) (m + 1) =
        (((data.drop (m - q)).take q).map (fun d => d.close)).sum + data[m].close := by
      unfold partialWindowSum
      rw [min_eq_left (by omega), show m + 1 - (q + 1) = m - q by omega, List.take_succ]
      have h4 : (data.drop (m - q))[q]? = some data[m] := by
        rw [List.getElem?_drop, show m - q + q = m by omega]
        exact List.getElem?_eq_getElem hm
      rw [h4]
      simp [List.map_append]
    have hRHS : partialWindowSum data (q + 1) m =
        data[m - (q + 1)].close + (((data.drop (m - q)).take q).map (fun d => d.close)).sum := by
      unfold partialWindowSum
      rw [min_eq_left (by omega), List.drop_eq_getElem_cons hmp,
        show m - (q + 1) + 1 = m - q by omega, List.take_succ_cons]
      simp
    rw [hLHS, hRHS, hgetD m hm, hgetD (m - (q + 1)) hmp]
    ring
  · rw [if_neg hpm]
    unfold partialWindowSum
    have h1 : m - period = 0 := by omega
    have h2 : m + 1 - period = 0 := by omega
    have h3 : min period m = m := min_eq_right (by omega)
    have h4 : min period (m + 1) = m + 1 := min_eq_right (by omega)
    rw [h1, h2, h3, h4, List.drop_zero, List.take_succ]
    rw [List.getElem?_eq_getElem hm]
    simp only [List.map_append, List.map_cons, List.sum_append, List.sum_cons,
      Option.toList_some, List.map_nil, List.sum_nil]
    rw [hgetD m hm]
    ring

theorem sma_foldl_eq (data : List PricePoint) (period : ℕ) (hp : 1 ≤ period) :
    ∀ m, m ≤ data.length →
    (List.range m).foldl (smaStep data period) (0, []) =
    (partialWindowSum data period m,
     (List.range (m - (period - 1))).map (fun k =>
       (⟨(data.getD (k + (period - 1)) default).date,
         windowSum data k period / period⟩ : IndicatorPoint))) := by
  intro m
  induction m with
  | zero =>
    intro _
    simp [partialWindowSum]
  | succ m ih =>
    intro hm1
    have hm : m < data.length := by omega
    rw [List.range_succ, List.foldl_append, ih (by omega)]
    simp only [List.foldl_cons, List.foldl_nil]
    have hsum := partialWindowSum_succ data period hp m hm
    by_cases hp1 : period ≤ m + 1
    · have hr : m + 1 - (period - 1) = (m - (period - 1)) + 1 := by omega
      have hw : windowSum data (m - (period - 1)) period =
          partialWindowSum data period (m + 1) := by
        unfold windowSum partialWindowSum
        rw [show m + 1 - period = m - (period - 1) by omega,
          min_eq_left (by omega)]
      by_cases hp0 : period ≤ m
      · rw [if_pos hp0] at hsum
        simp only [smaStep, if_pos hp0, if_pos hp1]
        rw [hr, List.range_succ, List.map_append]
        refine Prod.ext ?_ ?_
        · simp only []
          rw [hsum]
        · simp only [List.map_cons, List.map_nil]
          congr 1
          have hk : m - (period - 1) + (period - 1) = m := by omega
          rw [hk, hw, hsum]
      · rw [if_neg hp0] at hsum
        simp only [smaStep, if_neg hp0, if_pos hp1]
        rw [hr, List.range_succ, List.map_append]
        refine Prod.ext ?_ ?_
        · simp only []
          rw [hsum]
        · simp only [List.map_cons, List.map_nil]
          congr 1
          have hk : m - (period - 1) + (period - 1) = m := by omega
          rw [hk, hw, hsum]
    · have hp0 : ¬ period ≤ m := by omega
      rw [if_neg hp0] at hsum
      simp only [smaStep, if_neg hp0, if_neg hp1]
      have hr : m + 1 - (period - 1) = 0 := by omega
      have hr0 : m - (period - 1) = 0 := by omega
      rw [hr, hr0] at *
      refine Prod.ext ?_ ?_
      · simp only []
        rw [hsum]
      · rfl

/-- Closed form of `calculateSMA`: for `1 ≤ period ≤ n` it returns one
point per output index `k = 0 .. n-period`, dated at input index
`k + period - 1`, valued at the window sum over indices
`k .. k+period-1` divided by `period`. -/
theorem calculateSMA_eq (data : List PricePoint) (period : ℕ)
    (hp : 1 ≤ period) (hn : period ≤ data.length) :
    calculateSMA data period = some ((List.range (data.length - (period - 1))).map
      (fun k => (⟨(data.getD (k + (period - 1)) default).date,
        windowSum data k period / period⟩ : IndicatorPoint))) := by
  unfold calculateSMA
  rw [if_neg (by omega), sma_foldl_eq data period hp data.length (le_refl _)]

/-- C6.  For `n ≥ period` the SMA output has one point per input index
`period-1 .. n-1` (so exactly `n - period + 1` points, the k-th carrying
the date of input index `k + period - 1`), each valued at the arithmetic
mean (window sum divided by `period`) of the closes in the trailing
window of size `period`; for `n < period` it produces no output at all
(`none`). -/
theorem sma_defined_exactly_and_mean (data : List PricePoint) (period : ℕ)
    (hp : 1 ≤ period) :
    (data.length < period → calculateSMA data period = none) ∧
    (period ≤ data.length →
      ∃ out, calculateSMA data period = some out ∧
        out.length = data.length - (period - 1) ∧
        ∀ k, k < out.length →
          out.getD k default = ⟨(data.getD (k + (period - 1)) default).date,
            windowSum data k period / period⟩) := by
  constructor
  · intro h
    unfold calculateSMA
    rw [if_pos h]
  · intro hn
    refine ⟨_, calculateSMA_eq data period hp hn, ?_, ?_⟩
    · simp
    · intro k hk
      simp only [List.length_map, List.length_range] at hk
      rw [List.getD_eq_getElem _ _ (by simpa using hk), List.getElem_map,
        List.getElem_range]

/-- Witness for C6 at `data = [{0,1},{1,2},{2,3}]`, `period = 2`. -/
theorem sma_defined_exactly_and_mean_witness :
    ((1 : ℕ) ≤ 2) ∧
    ((([⟨0, 1⟩, ⟨1, 2⟩, ⟨2, 3⟩] : List PricePoint).length < 2 →
        calculateSMA [⟨0, 1⟩, ⟨1, 2⟩, ⟨2, 3⟩] 2 = none) ∧
     (2 ≤ ([⟨0, 1⟩, ⟨1, 2⟩, ⟨2, 3⟩] : List PricePoint).length →
       ∃ out, calculateSMA [⟨0, 1⟩, ⟨1, 2⟩, ⟨2, 3⟩] 2 = some out ∧
         out.length = ([⟨0, 1⟩, ⟨1, 2⟩, ⟨2, 3⟩] : List PricePoint).length - (2 - 1) ∧
         ∀ k, k < out.length →
           out.getD k default =
             ⟨(([⟨0, 1⟩, ⟨1, 2⟩, ⟨2, 3⟩] : List PricePoint).getD (k + (2 - 1)) default).date,
               windowSum [⟨0, 1⟩, ⟨1, 2⟩, ⟨2, 3⟩] k 2 / 2⟩)) :=
  ⟨by decide, sma_defined_exactly_and_mean [⟨0, 1⟩, ⟨1, 2⟩, ⟨2, 3⟩] 2 (by decide)⟩

/-! ### C8 — Bollinger bandwidth and middle band -/

/-- Spec-side population variance of a list:
`Σ (x - mean)² / length` with `mean = Σ x / length`. -/
def popVariance (arr : List ℚ) : ℚ :=
  (arr.map (fun v => (v - arr.sum / arr.length) ^ 2)).sum / arr.length

theorem foldl_add_map (g : ℚ → ℚ) (l : List ℚ) :
    ∀ init : ℚ, l.foldl (fun s v => s + g v) init = init + (l.map g).sum := by
  induction l with
  | nil => intro init; simp
  | cons a t ih =>
    intro init
    simp only [List.foldl_cons, List.map_cons, List.sum_cons, ih (init + g a)]
    ring

theorem foldl_add_eq_sum (l : List ℚ) : l.foldl (· + ·) 0 = l.sum := by
  have h := foldl_add_map id l 0
  simpa using h

/-- The source `calculateSD` computes exactly `sqrtFn` of the
population variance of its argument. -/
theorem calculateSD_eq (sqrtFn : ℚ → ℚ) (arr : List ℚ) :
    calculateSD sqrtFn arr = sqrtFn (popVariance arr) := by
  show sqrtFn ((arr.foldl
      (fun s v => s + (v - arr.foldl (· + ·) (0 : ℚ) / (arr.length : ℚ)) ^ 2)
      (0 : ℚ)) / (arr.length : ℚ)) = _
  rw [foldl_add_eq_sum,
    foldl_add_map (fun v => (v - arr.sum / (arr.length : ℚ)) ^ 2) arr 0]
  unfold popVariance
  rw [zero_add]

/-- C8.  Wherever Bollinger bands are defined, `upper − lower` equals
`2·devs·σ` with `σ` the (abstract) square root of the population
variance of the trailing `period` closes, and `middle` equals the SMA
of the same `period` at the same index. -/
theorem bollinger_width_and_middle (sqrtFn : ℚ → ℚ) (data : List PricePoint)
    (period : ℕ) (devs : ℚ) (hp : 1 ≤ period) (hn : period ≤ data.length) :
    ∃ bb sma, calculateBollingerBands sqrtFn data period devs = some bb ∧
      calculateSMA data period = some sma ∧
      bb.length = sma.length ∧
      ∀ k, k < bb.length →
        (bb.getD k default).upper - (bb.getD k default).lower =
          2 * devs * sqrtFn (popVariance (((data.drop k).take period).map
            (fun d => d.close))) ∧
        (bb.getD k default).middle = (sma.getD k default).value := by
  have hbb : calculateBollingerBands sqrtFn data period devs =
      some ((List.range' (period - 1) (data.length - (period - 1))).map (fun i =>
        (⟨(data.getD i default).date,
          (((data.drop (i + 1 - period)).take period).map (fun d => d.close)).foldl
              (· + ·) 0 / period
            + devs * calculateSD sqrtFn (((data.drop (i + 1 - period)).take period).map
              (fun d => d.close)),
          (((data.drop (i + 1 - period)).take period).map (fun d => d.close)).foldl
              (· + ·) 0 / period,
          (((data.drop (i + 1 - period)).take period).map (fun d => d.close)).foldl
              (· + ·) 0 / period
            - devs * calculateSD sqrtFn (((data.drop (i + 1 - period)).take period).map
              (fun d => d.close))⟩ : BBPoint))) := by
    unfold calculateBollingerBands
    rw [if_neg (by omega)]
  refine ⟨_, _, hbb, calculateSMA_eq data period hp hn, ?_, ?_⟩
  · simp
  · intro k hk
    simp only [List.length_map, List.length_range'] at hk
    have hk' : k < data.length - (period - 1) := hk
    have hkr : k < (List.range' (period - 1) (data.length - (period - 1))).length := by
      simpa [List.length_range'] using hk'
    have hidx : (List.range' (period - 1) (data.length - (period - 1)))[k] =
        period - 1 + k := by
      rw [List.getElem_range']
      omega
    have hbbk : ((List.range' (period - 1) (data.length - (period - 1))).map (fun i =>
        (⟨(data.getD i default).date,
          (((data.drop (i + 1 - period)).take period).map (fun d => d.close)).foldl
              (· + ·) 0 / period
            + devs * calculateSD sqrtFn (((data.drop (i + 1 - period)).take period).map
              (fun d => d.close)),
          (((data.drop (i + 1 - period)).take period).map (fun d => d.close)).foldl
              (· + ·) 0 / period,
          (((data.drop (i + 1 - period)).take period).map (fun d => d.close)).foldl
              (· + ·) 0 / period
            - devs * calculateSD sqrtFn (((data.drop (i + 1 - period)).take period).map
              (fun d => d.close))⟩ : BBPoint))).getD k default =
        (⟨(data.getD (period - 1 + k) default).date,
          (((data.drop k).take period).map (fun d => d.close)).foldl (· + ·) 0 / period
            + devs * calculateSD sqrtFn (((data.drop k).take period).map
              (fun d => d.close)),
          (((data.drop k).take period).map (fun d => d.close)).foldl (· + ·) 0 / period,
          (((data.drop k).take period).map (fun d => d.close)).foldl (· + ·) 0 / period
            - devs * calculateSD sqrtFn (((data.drop k).take period).map
              (fun d => d.close))⟩ : BBPoint) := by
      rw [List.getD_eq_getElem _ _ (by simpa [List.length_range'] using hk'),
        List.getElem_map, hidx, show period - 1 + k + 1 - period = k by omega]
    rw [hbbk]
    constructor
    · simp only [calculateSD_eq]
      ring
    · have hsma : ((List.range (data.length - (period - 1))).map
          (fun k => (⟨(data.getD (k + (period - 1)) default).date,
            windowSum data k period / period⟩ : IndicatorPoint))).getD k default =
          (⟨(data.getD (k + (period - 1)) default).date,
            windowSum data k period / period⟩ : IndicatorPoint) := by
        rw [List.getD_eq_getElem _ _ (by simpa using hk'), List.getElem_map,
          List.getElem_range]
      rw [hsma]
      simp only [foldl_add_eq_sum]
      rfl

/-- Witness for C8 at `sqrtFn = id`, `data = [{0,1},{1,2},{2,3}]`,
`period = 2`, `devs = 2`. -/
theorem bollinger_width_and_middle_witness :
    ((1 : ℕ) ≤ 2 ∧ 2 ≤ ([⟨0, 1⟩, ⟨1, 2⟩, ⟨2, 3⟩] : List PricePoint).length) ∧
    (∃ bb sma, calculateBollingerBands id [⟨0, 1⟩, ⟨1, 2⟩, ⟨2, 3⟩] 2 2 = some bb ∧
      calculateSMA [⟨0, 1⟩, ⟨1, 2⟩, ⟨2, 3⟩] 2 = some sma ∧
      bb.length = sma.length ∧
      ∀ k, k < bb.length →
        (bb.getD k default).upper - (bb.getD k default).lower =
          2 * 2 * id (popVariance (((([⟨0, 1⟩, ⟨1, 2⟩, ⟨2, 3⟩] : List PricePoint).drop k).take 2).map
            (fun d => d.close))) ∧
        (bb.getD k default).middle = (sma.getD k default).value) :=
  ⟨⟨by decide, by decide⟩,
    bollinger_width_and_middle id [⟨0, 1⟩, ⟨1, 2⟩, ⟨2, 3⟩] 2 2 (by decide) (by decide)⟩

/-! ### C1 — RSI range and the `avgLoss = 0` case -/

theorem rsiSeedFold_nonneg : ∀ (cs : List ℚ) (g l : ℚ), 0 ≤ g → 0 ≤ l →
    0 ≤ (cs.foldl (fun (gl : ℚ × ℚ) c =>
      if 0 < c then (gl.1 + c, gl.2) else (gl.1, gl.2 + (-c))) (g, l)).1 ∧
    0 ≤ (cs.foldl (fun (gl : ℚ × ℚ) c =>
      if 0 < c then (gl.1 + c, gl.2) else (gl.1, gl.2 + (-c))) (g, l)).2 := by
  intro cs
  induction cs with
  | nil => intro g l hg hl; exact ⟨hg, hl⟩
  | cons c t ih =>
    intro g l hg hl
    simp only [List.foldl_cons]
    by_cases hc : 0 < c
    · rw [if_pos hc]
      exact ih (g + c) l (by linarith) hl
    · rw [if_neg hc]
      exact ih g (l + (-c)) hg (by push_neg at hc; linarith)

theorem rsiSeed_nonneg (period : ℕ) (hp : 1 ≤ period) (changes : List ℚ) :
    0 ≤ (rsiSeed period changes).1 ∧ 0 ≤ (rsiSeed period changes).2 := by
  have hper : (0 : ℚ) ≤ (period : ℚ) := by positivity
  have h := rsiSeedFold_nonneg (changes.take period) 0 0 (le_refl 0) (le_refl 0)
  unfold rsiSeed
  exact ⟨div_nonneg h.1 hper, div_nonneg h.2 hper⟩

theorem rsiStep_nonneg (period : ℕ) (hp : 1 ≤ period) (s : ℚ × ℚ) (c : ℚ)
    (h1 : 0 ≤ s.1) (h2 : 0 ≤ s.2) :
    0 ≤ (rsiStep period s c).1 ∧ 0 ≤ (rsiStep period s c).2 := by
  have hper : (1 : ℚ) ≤ (period : ℚ) := by exact_mod_cast hp
  have hper0 : (0 : ℚ) ≤ (period : ℚ) := by linarith
  have hm : (0 : ℚ) ≤ (period : ℚ) - 1 := by linarith
  unfold rsiStep
  by_cases hc : 0 < c
  · rw [if_pos hc]
    exact ⟨div_nonneg (by nlinarith) hper0, div_nonneg (by nlinarith) hper0⟩
  · rw [if_neg hc]
    push_neg at hc
    exact ⟨div_nonneg (by nlinarith) hper0, div_nonneg (by nlinarith) hper0⟩

theorem rsiValue_bounds (s : ℚ × ℚ) (h1 : 0 ≤ s.1) (h2 : 0 ≤ s.2) :
    0 ≤ rsiValue s ∧ rsiValue s ≤ 100 := by
  unfold rsiValue
  have hrs : 0 ≤ (if s.2 = 0 then (100 : ℚ) else s.1 / s.2) := by
    split_ifs with h
    · norm_num
    · exact div_nonneg h1 h2
  set rs := if s.2 = 0 then (100 : ℚ) else s.1 / s.2
  have hge : (1 : ℚ) ≤ 1 + rs := by linarith
  have hub : 100 / (1 + rs) ≤ 100 := div_le_self (by norm_num) hge
  have hlb : 0 ≤ 100 / (1 + rs) := div_nonneg (by norm_num) (by linarith)
  constructor <;> simp only [] <;> linarith

theorem rsi_fold_bounds (period : ℕ) (hp : 1 ≤ period) :
    ∀ (rest : List (ℚ × PricePoint)) (s : ℚ × ℚ) (acc : List IndicatorPoint),
      0 ≤ s.1 → 0 ≤ s.2 → (∀ p ∈ acc, 0 ≤ p.value ∧ p.value ≤ 100) →
      ∀ p ∈ (rest.foldl (fun acc2 cd =>
        let s2 := rsiStep period acc2.1 cd.1
        (s2, acc2.2 ++ [⟨cd.2.date, rsiValue s2⟩])) (s, acc)).2,
        0 ≤ p.value ∧ p.value ≤ 100 := by
  intro rest
  induction rest with
  | nil => intro s acc h1 h2 hacc p hmem; exact hacc p hmem
  | cons cd t ih =>
    intro s acc h1 h2 hacc p hmem
    simp only [List.foldl_cons] at hmem
    have hs2 := rsiStep_nonneg period hp s cd.1 h1 h2
    refine ih (rsiStep period s cd.1) (acc ++ [⟨cd.2.date, rsiValue (rsiStep period s cd.1)⟩])
      hs2.1 hs2.2 ?_ p hmem
    intro q hq
    rcases List.mem_append.mp hq with h | h
    · exact hacc q h
    · rcases List.mem_singleton.mp h with rfl
      exact rsiValue_bounds _ hs2.1 hs2.2

/-- C1 counterexample.  Three strictly rising closes with `period = 1`:
every change is a gain, so the running `avgLoss` is `0` at the single
emission (first conjunct), yet the emitted RSI value is
`100 − 100/101 = 10000/101 ≈ 99.0099`, not `100` — the source guards the
division by setting `RS = 100`, not `RSI = 100`. -/
theorem rsi_avgLoss_zero_counterexample :
    (rsiStep 1 (rsiSeed 1 (priceChanges [⟨0, 1⟩, ⟨1, 2⟩, ⟨2, 3⟩])) 1).2 = 0 ∧
    calculateRSI [⟨0, 1⟩, ⟨1, 2⟩, ⟨2, 3⟩] 1 = some [⟨2, 10000 / 101⟩] ∧
    (10000 / 101 : ℚ) ≠ 100 := by
  refine ⟨?_, ?_, by norm_num⟩
  · norm_num [rsiStep, rsiSeed, priceChanges]
  · norm_num [calculateRSI, priceChanges, rsiSeed, rsiStep, rsiValue]

/-- C1 amended.  Every RSI output value lies in `[0, 100]`; and whenever
the running `avgLoss` is `0`, the emitted RSI value equals exactly
`10000/101` (the code sets `RS = 100` when `avgLoss = 0`, so
`RSI = 100 − 100/101`), not `100`. -/
theorem rsi_bounded_and_avgLoss_zero_value (data : List PricePoint) (period : ℕ)
    (hp : 1 ≤ period) :
    (∀ out, calculateRSI data period = some out →
      ∀ p ∈ out, 0 ≤ p.value ∧ p.value ≤ 100) ∧
    (∀ s : ℚ × ℚ, s.2 = 0 → rsiValue s = 10000 / 101) := by
  constructor
  · intro out hout p hmem
    by_cases hlen : data.length < period + 1
    · unfold calculateRSI at hout
      rw [if_pos hlen] at hout
      cases hout
    · unfold calculateRSI at hout
      rw [if_neg hlen] at hout
      simp only [Option.some.injEq] at hout
      subst hout
      have hseed := rsiSeed_nonneg period hp (priceChanges data)
      exact rsi_fold_bounds period hp _ _ [] hseed.1 hseed.2 (by simp) p hmem
  · intro s hs
    unfold rsiValue
    rw [if_pos hs]
    norm_num

/-- Witness for the amended C1 at
`data = [{0,1},{1,2},{2,1},{3,3}]`, `period = 2`. -/
theorem rsi_bounded_and_avgLoss_zero_value_witness :
    ((1 : ℕ) ≤ 2) ∧
    ((∀ out, calculateRSI [⟨0, 1⟩, ⟨1, 2⟩, ⟨2, 1⟩, ⟨3, 3⟩] 2 = some out →
      ∀ p ∈ out, 0 ≤ p.value ∧ p.value ≤ 100) ∧
     (∀ s : ℚ × ℚ, s.2 = 0 → rsiValue s = 10000 / 101)) :=
  ⟨by decide,
    rsi_bounded_and_avgLoss_zero_value [⟨0, 1⟩, ⟨1, 2⟩, ⟨2, 1⟩, ⟨3, 3⟩] 2 (by decide)⟩

/-! ### C2/C7 — MACD date structure and histogram values -/

theorem emaFold_dates (k : ℚ) : ∀ (ds : List PricePoint) (e : ℚ),
    (emaFold k ds e).map (fun p => p.date) = ds.map (fun p => p.date) := by
  intro ds
  induction ds with
  | nil => intro e; rfl
  | cons d t ih =>
    intro e
    simp only [emaFold, List.map_cons, ih]

/-- For `1 ≤ period ≤ n`, `calculateEMA` succeeds and its output dates
are the input dates from index `period - 1` on. -/
theorem calculateEMA_spec (data : List PricePoint) (period : ℕ)
    (hp : 1 ≤ period) (hn : period ≤ data.length) :
    ∃ out, calculateEMA data period = some out ∧
      out.map (fun p => p.date) = (data.map (fun p => p.date)).drop (period - 1) := by
  unfold calculateEMA
  rw [if_neg (by omega)]
  obtain ⟨d, ds, hds⟩ : ∃ d ds, data.drop (period - 1) = d :: ds := by
    cases h : data.drop (period - 1) with
    | nil =>
      exfalso
      have := List.length_drop (period - 1) data
      rw [h] at this
      simp at this
      omega
    | cons d ds => exact ⟨d, ds, rfl⟩
  rw [hds]
  refine ⟨_, rfl, ?_⟩
  simp only [List.map_cons, emaFold_dates]
  rw [← List.map_drop, hds, List.map_cons]

/-- Closed description of a successful `calculateMACD` run: the macd
line sits at the input dates from `slow - 1` on, the signal line at the
macd dates from `sig - 1` on, and the histogram is the macd line with
the signal-map lookup subtracted pointwise. -/
theorem calculateMACD_spec (data : List PricePoint) (fast slow sig : ℕ)
    (hf : 1 ≤ fast) (hsl : 1 ≤ slow) (hsg : 1 ≤ sig)
    (hfn : fast ≤ data.length) (hn : slow + sig ≤ data.length) :
    ∃ r, calculateMACD data fast slow sig = some r ∧
      r.macdLine.map (fun p => p.date) = (data.map (fun p => p.date)).drop (slow - 1) ∧
      r.signalLine.map (fun p => p.date) =
        (r.macdLine.map (fun p => p.date)).drop (sig - 1) ∧
      r.histogram = r.macdLine.map (fun ml =>
        (⟨ml.date, ml.value - ((mapGet r.signalLine ml.date).getD 0)⟩ :
          IndicatorPoint)) := by
  obtain ⟨ef, hef, hefd⟩ := calculateEMA_spec data fast hf hfn
  obtain ⟨es, hes, hesd⟩ := calculateEMA_spec data slow hsl (by omega)
  unfold calculateMACD
  rw [if_neg (by omega), hef, hes]
  have hmlen : ((data.drop (slow - 1)).map (fun d =>
      (⟨d.date, ((mapGet ef d.date).getD 0) - ((mapGet es d.date).getD 0)⟩ :
        IndicatorPoint))).length = data.length - (slow - 1) := by
    simp
  obtain ⟨sl, hsl2, hsld⟩ := calculateEMA_spec
    (((data.drop (slow - 1)).map (fun d =>
      (⟨d.date, ((mapGet ef d.date).getD 0) - ((mapGet es d.date).getD 0)⟩ :
        IndicatorPoint))).map (fun m => (⟨m.date, m.value⟩ : PricePoint))) sig hsg
    (by rw [List.length_map, hmlen]; omega)
  simp only [hsl2]
  refine ⟨_, rfl, ?_, ?_, rfl⟩
  · simp only [List.map_map]
    rw [← List.map_drop]
    rfl
  · rw [hsld]
    simp only [List.map_map]
    rfl

theorem mapGet_some_mem (l : List IndicatorPoint) (ts : Int) (v : ℚ) :
    mapGet l ts = some v → (⟨ts, v⟩ : IndicatorPoint) ∈ l := by
  have haux : ∀ (l2 : List IndicatorPoint) (acc : Option ℚ),
      l2.foldl (fun acc e => if e.date = ts then some e.value else acc) acc = some v →
      (⟨ts, v⟩ : IndicatorPoint) ∈ l2 ∨ acc = some v := by
    intro l2
    induction l2 with
    | nil => intro acc h; exact Or.inr h
    | cons a t ih =>
      intro acc h
      simp only [List.foldl_cons] at h
      rcases ih _ h with h2 | h2
      · exact Or.inl (List.mem_cons_of_mem a h2)
      · by_cases hd : a.date = ts
        · rw [if_pos hd] at h2
          left
          have : a = ⟨ts, v⟩ := by
            cases a
            simp only [Option.some.injEq] at h2
            simp_all
          rw [← this]
          exact List.mem_cons_self a t
        · rw [if_neg hd] at h2
          exact Or.inr h2
  intro h
  rcases haux l none h with h2 | h2
  · exact h2
  · cases h2

theorem mapGet_no_match (ts : Int) : ∀ (l : List IndicatorPoint) (acc : Option ℚ),
    (∀ e ∈ l, e.date ≠ ts) →
    l.foldl (fun acc e => if e.date = ts then some e.value else acc) acc = acc := by
  intro l
  induction l with
  | nil => intro acc _; rfl
  | cons a t ih =>
    intro acc hne
    simp only [List.foldl_cons]
    rw [if_neg (hne a (List.mem_cons_self a t))]
    exact ih acc (fun e he => hne e (List.mem_cons_of_mem a he))

theorem mapGet_of_nodup_mem (l : List IndicatorPoint)
    (hnd : (l.map (fun p => p.date)).Nodup) (p : IndicatorPoint) (hmem : p ∈ l) :
    mapGet l p.date = some p.value := by
  obtain ⟨l1, l2, rfl⟩ := List.append_of_mem hmem
  unfold mapGet
  rw [List.foldl_append]
  simp only [List.foldl_cons, if_pos]
  apply mapGet_no_match
  intro e he
  simp only [List.map_append, List.map_cons] at hnd
  have h2 := (List.nodup_append.mp hnd).2.1
  have h3 := (List.nodup_cons.mp h2).1
  intro hcontra
  exact h3 (by
    rw [← hcontra]
    exact List.mem_map.mpr ⟨e, he, rfl⟩)

/-- C2 counterexample.  For the 35-day constant series with dates
`0..34` and the default parameters `(12, 26, 9)`, date `25` is present
in `macdLine` (and `histogram`) but absent from `signalLine`: the three
series are not mutually date-aligned. -/
theorem macd_not_mutually_aligned_counterexample :
    ∃ r, calculateMACD ((List.range 35).map (fun i => (⟨(i : Int), 1⟩ : PricePoint)))
        12 26 9 = some r ∧
      (25 : Int) ∈ r.macdLine.map (fun p => p.date) ∧
      (25 : Int) ∉ r.signalLine.map (fun p => p.date) := by
  obtain ⟨r, hr, hmacd, hsig, _⟩ := calculateMACD_spec
    ((List.range 35).map (fun i => (⟨(i : Int), 1⟩ : PricePoint))) 12 26 9
    (by decide) (by decide) (by decide) (by decide) (by decide)
  refine ⟨r, hr, ?_, ?_⟩
  · rw [hmacd]
    decide
  · rw [hsig, hmacd]
    decide

/-- C2 amended.  For every accepted input, `macdLine` and `histogram`
carry exactly the same dates (in order), while `signalLine` carries
exactly the dates of `macdLine` from index `sig − 1` on — a proper
suffix whenever `sig ≥ 2`, so the three series are not all
date-aligned. -/
theorem macd_histogram_aligned_signal_suffix (data : List PricePoint)
    (fast slow sig : ℕ) (hf : 1 ≤ fast) (hsl : 1 ≤ slow) (hsg : 1 ≤ sig)
    (hfn : fast ≤ data.length) (hn : slow + sig ≤ data.length) :
    ∃ r, calculateMACD data fast slow sig = some r ∧
      r.histogram.map (fun p => p.date) = r.macdLine.map (fun p => p.date) ∧
      r.signalLine.map (fun p => p.date) =
        (r.macdLine.map (fun p => p.date)).drop (sig - 1) := by
  obtain ⟨r, hr, hmacd, hsig, hhist⟩ :=
    calculateMACD_spec data fast slow sig hf hsl hsg hfn hn
  refine ⟨r, hr, ?_, hsig⟩
  rw [hhist]
  simp only [List.map_map]
  rfl

/-- Witness for the amended C2 at the 35-day constant series with the
default parameters. -/
theorem macd_histogram_aligned_signal_suffix_witness :
    ((1 : ℕ) ≤ 12 ∧ (1 : ℕ) ≤ 26 ∧ (1 : ℕ) ≤ 9 ∧
      12 ≤ ((List.range 35).map (fun i => (⟨(i : Int), 1⟩ : PricePoint))).length ∧
      26 + 9 ≤ ((List.range 35).map (fun i => (⟨(i : Int), 1⟩ : PricePoint))).length) ∧
    (∃ r, calculateMACD ((List.range 35).map (fun i => (⟨(i : Int), 1⟩ : PricePoint)))
        12 26 9 = some r ∧
      r.histogram.map (fun p => p.date) = r.macdLine.map (fun p => p.date) ∧
      r.signalLine.map (fun p => p.date) =
        (r.macdLine.map (fun p => p.date)).drop (9 - 1)) :=
  ⟨⟨by decide, by decide, by decide, by decide, by decide⟩,
    macd_histogram_aligned_signal_suffix _ 12 26 9
      (by decide) (by decide) (by decide) (by decide) (by decide)⟩

/-- C7.  For every date present in all three MACD output series (here:
looked up through the same date-keyed map access the source uses), the
histogram value equals the macd value minus the signal value, exactly. -/
theorem macd_histogram_exact_difference (data : List PricePoint)
    (fast slow sig : ℕ) (hf : 1 ≤ fast) (hsl : 1 ≤ slow) (hsg : 1 ≤ sig)
    (hfn : fast ≤ data.length) (hn : slow + sig ≤ data.length)
    (hnd : (data.map (fun p => p.date)).Nodup) :
    ∃ r, calculateMACD data fast slow sig = some r ∧
      ∀ d m s, mapGet r.macdLine d = some m → mapGet r.signalLine d = some s →
        mapGet r.histogram d = some (m - s) := by
  obtain ⟨r, hr, hmacd, hsig, hhist⟩ :=
    calculateMACD_spec data fast slow sig hf hsl hsg hfn hn
  refine ⟨r, hr, ?_⟩
  intro d m s hm hs
  have hmem : (⟨d, m⟩ : IndicatorPoint) ∈ r.macdLine := mapGet_some_mem _ _ _ hm
  have hmemh : (⟨d, m - s⟩ : IndicatorPoint) ∈ r.histogram := by
    rw [hhist]
    refine List.mem_map.mpr ⟨⟨d, m⟩, hmem, ?_⟩
    simp only [hs, Option.getD_some]
  have hndh : (r.histogram.map (fun p => p.date)).Nodup := by
    have hnd2 : (r.macdLine.map (fun p => p.date)).Nodup := by
      rw [hmacd]
      exact hnd.sublist (List.drop_sublist _ _)
    rw [hhist]
    simp only [List.map_map]
    exact hnd2
  have hfinal := mapGet_of_nodup_mem r.histogram hndh ⟨d, m - s⟩ hmemh
  simpa using hfinal

/-- Witness for C7 at the 35-day constant series with the default
parameters. -/
theorem macd_histogram_exact_difference_witness :
    ((1 : ℕ) ≤ 12 ∧ (1 : ℕ) ≤ 26 ∧ (1 : ℕ) ≤ 9 ∧
      12 ≤ ((List.range 35).map (fun i => (⟨(i : Int), 1⟩ : PricePoint))).length ∧
      26 + 9 ≤ ((List.range 35).map (fun i => (⟨(i : Int), 1⟩ : PricePoint))).length ∧
      (((List.range 35).map (fun i => (⟨(i : Int), 1⟩ : PricePoint))).map
        (fun p => p.date)).Nodup) ∧
    (∃ r, calculateMACD ((List.range 35).map (fun i => (⟨(i : Int), 1⟩ : PricePoint)))
        12 26 9 = some r ∧
      ∀ d m s, mapGet r.macdLine d = some m → mapGet r.signalLine d = some s →
        mapGet r.histogram d = some (m - s)) :=
  ⟨⟨by decide, by decide, by decide, by decide, by decide, by decide⟩,
    macd_histogram_exact_difference _ 12 26 9
      (by decide) (by decide) (by decide) (by decide) (by decide) (by decide)⟩

/-! ### C4 — golden/death-cross zone invariants -/

/-- Loop invariant of the zone builder.  `D` is the date of the most
recently processed bar (or a lower bound for all bars still to come):
the closed zones are chained (`end = next start`) and strictly ordered,
every closed zone is nonempty (`start < end`), and when a zone is open
its start is `≤ D`, caps every closed zone, and coincides with the last
closed zone's end. -/
def ZoneInv (s : CrossState) (D : Int) : Prop :=
  List.Chain' (fun a b => a.endDate = b.start ∧ a.start < b.start) s.zones ∧
  (∀ z ∈ s.zones, z.start < z.endDate) ∧
  (match s.zoneStart with
   | none => s.zones = []
   | some zs => zs ≤ D ∧ (∀ z ∈ s.zones, z.endDate ≤ zs) ∧
       (s.zones = [] ∨ ∃ z, s.zones.getLast? = some z ∧ z.endDate = zs))

theorem ZoneInv_mono {s : CrossState} {D E : Int} (h : ZoneInv s D) (hle : D ≤ E) :
    ZoneInv s E := by
  obtain ⟨h1, h2, h3⟩ := h
  refine ⟨h1, h2, ?_⟩
  cases hz : s.zoneStart with
  | none => rw [hz] at h3; simp only [h3]
  | some zs =>
    rw [hz] at h3
    exact ⟨le_trans h3.1 hle, h3.2⟩

theorem signal_push_inv (s : CrossState) (d : Int) (cl : ℚ) (t : String) (D : Int)
    (hinv : ZoneInv s D) (hD : D < d) :
    ZoneInv ⟨s.signals ++ [⟨d, t, cl⟩],
      s.zones ++ (match s.zoneStart with
        | some zs => [(⟨zs, d, s.currentZoneType⟩ : Zone)]
        | none => []),
      some d, some t⟩ d := by
  obtain ⟨h1, h2, h3⟩ := hinv
  rcases hz : s.zoneStart with _ | zs
  · rw [hz] at h3
    refine ⟨?_, ?_, ?_⟩
    · simp only [hz, h3, List.nil_append, List.append_nil, List.chain'_nil]
    · simp only [hz, h3, List.append_nil]
      intro z hmem
      cases hmem
    · simp only [hz, h3, List.append_nil]
      refine ⟨le_refl d, ?_, ?_⟩
      · intro z hmem
        cases hmem
      · left
        trivial
  · rw [hz] at h3
    obtain ⟨hzD, hend, hlast⟩ := h3
    refine ⟨?_, ?_, ?_⟩
    · simp only [hz]
      rw [List.chain'_append]
      refine ⟨h1, List.chain'_singleton _, ?_⟩
      intro x hx y hy
      simp only [List.head?_cons, Option.mem_def, Option.some.injEq] at hy
      subst hy
      rcases hlast with hnil | ⟨z, hzl, hze⟩
      · rw [hnil] at hx; cases hx
      · rw [hzl] at hx
        simp only [Option.mem_def, Option.some.injEq] at hx
        subst hx
        have hzmem : z ∈ s.zones := List.mem_of_mem_getLast? (by rw [hzl]; rfl)
        have h5 := h2 z hzmem
        exact ⟨hze, show z.start < zs by omega⟩
    · simp only [hz]
      intro z hmem
      rcases List.mem_append.mp hmem with h | h
      · exact h2 z h
      · simp only [List.mem_singleton] at h
        subst h
        show zs < d
        omega
    · simp only [hz]
      refine ⟨le_refl d, ?_, Or.inr ⟨⟨zs, d, s.currentZoneType⟩, ?_, rfl⟩⟩
      · intro z hmem
        rcases List.mem_append.mp hmem with h | h
        · have := hend z h; omega
        · simp only [List.mem_singleton] at h
          subst h
          show d ≤ d
          omega
      · rw [List.getLast?_concat]

theorem crossStep_inv (m50 m200 : List IndicatorPoint) (s : CrossState)
    (pc : PricePoint × PricePoint) (D : Int) (hinv : ZoneInv s D)
    (hD : D < pc.2.date) :
    ZoneInv (crossStep m50 m200 s pc) pc.2.date := by
  have hmono : ZoneInv s pc.2.date := ZoneInv_mono hinv (le_of_lt hD)
  unfold crossStep
  rcases h1 : mapGet m50 pc.2.date with _ | s50 <;>
    rcases h2 : mapGet m200 pc.2.date with _ | s200 <;>
      rcases h3 : mapGet m50 pc.1.date with _ | p50 <;>
        rcases h4 : mapGet m200 pc.1.date with _ | p200 <;>
          simp only [h1, h2, h3, h4] <;>
          try exact hmono
  by_cases hg : p50 ≤ p200 ∧ s200 < s50
  · simp only [if_pos hg]
    exact signal_push_inv s pc.2.date pc.2.close "golden" D hinv hD
  · by_cases hd : p200 ≤ p50 ∧ s50 < s200
    · simp only [if_neg hg, if_pos hd]
      exact signal_push_inv s pc.2.date pc.2.close "death" D hinv hD
    · simp only [if_neg hg, if_neg hd]
      rcases hz : s.zoneStart with _ | zs
      · simp only [hz]
        obtain ⟨i1, i2, i3⟩ := hinv
        rw [hz] at i3
        refine ⟨i1, i2, le_refl _, ?_, Or.inl i3⟩
        intro z hmem
        rw [i3] at hmem
        cases hmem
      · simp only [hz]
        exact hmono

theorem crossFold_inv (m50 m200 : List IndicatorPoint) :
    ∀ (pairs : List (PricePoint × PricePoint)) (s : CrossState) (D : Int),
      ZoneInv s D →
      List.Chain' (· < ·) (D :: pairs.map (fun pc => pc.2.date)) →
      ZoneInv (pairs.foldl (crossStep m50 m200) s)
        ((pairs.map (fun pc => pc.2.date)).getLastD D) := by
  intro pairs
  induction pairs with
  | nil => intro s D h _; exact h
  | cons pc t ih =>
    intro s D h hchain
    simp only [List.map_cons, List.getLastD_cons, List.foldl_cons]
    simp only [List.map_cons] at hchain
    have hD : D < pc.2.date := (List.chain'_cons.mp hchain).1
    exact ih (crossStep m50 m200 s pc) pc.2.date
      (crossStep_inv m50 m200 s pc D h hD) (List.chain'_cons.mp hchain).2

theorem getLastD_map_date : ∀ (l : List PricePoint) (d : PricePoint),
    (l.map (fun p => p.date)).getLastD d.date =
      ((d :: l).getLast (by simp)).date := by
  intro l
  induction l with
  | nil => intro d; rfl
  | cons a t ih =>
    intro d
    rw [List.map_cons, List.getLastD_cons, ih a]
    congr 1

/-- C4.  Under strictly increasing input dates, the zones returned by
the golden/death cross detector are contiguous (each zone's end is the
next zone's start), have `start ≤ end` (strictly for every zone but
possibly the last), are strictly ordered by start date (hence
non-overlapping), and the final zone ends at the last available date of
the series. -/
theorem cross_zones_ordered_contiguous (data : List PricePoint)
    (sma50List sma200List : List IndicatorPoint)
    (hmono : List.Chain' (· < ·) (data.map (fun p => p.date))) :
    List.Chain' (fun a b => a.endDate = b.start ∧ a.start < b.start)
      (calculateGoldenDeathCross data sma50List sma200List).2 ∧
    (∀ z ∈ (calculateGoldenDeathCross data sma50List sma200List).2,
      z.start ≤ z.endDate) ∧
    List.Pairwise (fun a b => a.start < b.start)
      (calculateGoldenDeathCross data sma50List sma200List).2 ∧
    (∀ z, (calculateGoldenDeathCross data sma50List sma200List).2.getLast? = some z →
      ∃ l, data.getLast? = some l ∧ z.endDate = l.date) := by
  have main : List.Chain' (fun a b => a.endDate = b.start ∧ a.start < b.start)
      (calculateGoldenDeathCross data sma50List sma200List).2 ∧
      (∀ z ∈ (calculateGoldenDeathCross data sma50List sma200List).2,
        z.start ≤ z.endDate) ∧
      (∀ z, (calculateGoldenDeathCross data sma50List sma200List).2.getLast? = some z →
        ∃ l, data.getLast? = some l ∧ z.endDate = l.date) := by
    rcases data with _ | ⟨d0, rest⟩
    · refine ⟨?_, ?_, ?_⟩ <;> simp [calculateGoldenDeathCross, crossStep]
    · have hlen : rest.length ≤ (d0 :: rest).length := by simp
      have hpairs : ((d0 :: rest).zip rest).map (fun pc => pc.2.date) =
          rest.map (fun p => p.date) := by
        rw [show (fun pc : PricePoint × PricePoint => pc.2.date) =
          ((fun p => p.date) ∘ Prod.snd) from rfl, ← List.map_map,
          List.map_snd_zip _ _ hlen]
      have hinv0 : ZoneInv ⟨[], [], none, none⟩ d0.date := by
        refine ⟨List.chain'_nil, ?_, ?_⟩
        · intro z hmem; cases hmem
        · simp only []
      have hchain : List.Chain' (· < ·)
          (d0.date :: ((d0 :: rest).zip rest).map (fun pc => pc.2.date)) := by
        rw [hpairs]
        simpa using hmono
      have hinv := crossFold_inv sma50List sma200List ((d0 :: rest).zip rest)
        ⟨[], [], none, none⟩ d0.date hinv0 hchain
      rw [hpairs, getLastD_map_date rest d0] at hinv
      set sfin := ((d0 :: rest).zip rest).foldl (crossStep sma50List sma200List)
        (⟨[], [], none, none⟩ : CrossState) with hsfin
      obtain ⟨i1, i2, i3⟩ := hinv
      have hres : (calculateGoldenDeathCross (d0 :: rest) sma50List sma200List).2 =
          (match sfin.zoneStart, (d0 :: rest).getLast? with
            | some zs, some last => sfin.zones ++ [(⟨zs, last.date, sfin.currentZoneType⟩ : Zone)]
            | _, _ => sfin.zones) := by
        unfold calculateGoldenDeathCross
        simp only [List.tail_cons]
        rw [← hsfin]
        rcases sfin.zoneStart with _ | zs <;> rcases h : (d0 :: rest).getLast? with _ | l
        · rfl
        · rfl
        · simp at h
        · rfl
      have hlast : (d0 :: rest).getLast? = some ((d0 :: rest).getLast (by simp)) :=
        List.getLast?_eq_getLast _ _
      rcases hz : sfin.zoneStart with _ | zs
      · rw [hz] at i3
        rw [hres, hz, hlast]
        simp only [i3]
        refine ⟨List.chain'_nil, ?_, ?_⟩
        · intro z hmem; cases hmem
        · intro z hz2; cases hz2
      · rw [hz] at i3
        obtain ⟨hzD, hend, hlst⟩ := i3
        rw [hres, hz, hlast]
        refine ⟨?_, ?_, ?_⟩
        · rw [List.chain'_append]
          refine ⟨i1, List.chain'_singleton _, ?_⟩
          intro x hx y hy
          simp only [List.head?_cons, Option.mem_def, Option.some.injEq] at hy
          subst hy
          rcases hlst with hnil | ⟨z, hzl, hze⟩
          · rw [hnil] at hx; cases hx
          · rw [hzl] at hx
            simp only [Option.mem_def, Option.some.injEq] at hx
            subst hx
            have hzmem : z ∈ sfin.zones := List.mem_of_mem_getLast? (by rw [hzl]; rfl)
            have h5 := i2 z hzmem
            exact ⟨hze, show z.start < zs by omega⟩
        · intro z hmem
          rcases List.mem_append.mp hmem with h | h
          · exact le_of_lt (i2 z h)
          · simp only [List.mem_singleton] at h
            subst h
            show zs ≤ ((d0 :: rest).getLast (by simp)).date
            omega
        · intro z hz2
          rw [List.getLast?_concat] at hz2
          simp only [Option.some.injEq] at hz2
          subst hz2
          exact ⟨_, hlast, rfl⟩
  haveI : IsTrans Zone (fun a b => a.start < b.start) :=
    ⟨fun a b c hab hbc => lt_trans hab hbc⟩
  refine ⟨main.1, main.2.1, ?_, main.2.2⟩
  exact List.chain'_iff_pairwise.mp (main.1.imp (fun a b h => h.2))

/-- Witness for C4 at a concrete 4-bar series with two crossings. -/
theorem cross_zones_ordered_contiguous_witness :
    List.Chain' (· < ·)
      (([⟨0, 10⟩, ⟨1, 10⟩, ⟨2, 10⟩, ⟨3, 10⟩] : List PricePoint).map (fun p => p.date)) ∧
    (List.Chain' (fun a b => a.endDate = b.start ∧ a.start < b.start)
      (calculateGoldenDeathCross [⟨0, 10⟩, ⟨1, 10⟩, ⟨2, 10⟩, ⟨3, 10⟩]
        [⟨0, 1⟩, ⟨1, 3⟩, ⟨2, 1⟩, ⟨3, 5⟩] [⟨0, 2⟩, ⟨1, 2⟩, ⟨2, 2⟩, ⟨3, 2⟩]).2 ∧
    (∀ z ∈ (calculateGoldenDeathCross [⟨0, 10⟩, ⟨1, 10⟩, ⟨2, 10⟩, ⟨3, 10⟩]
        [⟨0, 1⟩, ⟨1, 3⟩, ⟨2, 1⟩, ⟨3, 5⟩] [⟨0, 2⟩, ⟨1, 2⟩, ⟨2, 2⟩, ⟨3, 2⟩]).2,
      z.start ≤ z.endDate) ∧
    List.Pairwise (fun a b => a.start < b.start)
      (calculateGoldenDeathCross [⟨0, 10⟩, ⟨1, 10⟩, ⟨2, 10⟩, ⟨3, 10⟩]
        [⟨0, 1⟩, ⟨1, 3⟩, ⟨2, 1⟩, ⟨3, 5⟩] [⟨0, 2⟩, ⟨1, 2⟩, ⟨2, 2⟩, ⟨3, 2⟩]).2 ∧
    (∀ z, (calculateGoldenDeathCross [⟨0, 10⟩, ⟨1, 10⟩, ⟨2, 10⟩, ⟨3, 10⟩]
        [⟨0, 1⟩, ⟨1, 3⟩, ⟨2, 1⟩, ⟨3, 5⟩] [⟨0, 2⟩, ⟨1, 2⟩, ⟨2, 2⟩, ⟨3, 2⟩]).2.getLast? =
          some z →
      ∃ l, ([⟨0, 10⟩, ⟨1, 10⟩, ⟨2, 10⟩, ⟨3, 10⟩] : List PricePoint).getLast? = some l ∧
        z.endDate = l.date)) :=
  ⟨by simp [List.chain'_cons],
    cross_zones_ordered_contiguous [⟨0, 10⟩, ⟨1, 10⟩, ⟨2, 10⟩, ⟨3, 10⟩]
      [⟨0, 1⟩, ⟨1, 3⟩, ⟨2, 1⟩, ⟨3, 5⟩] [⟨0, 2⟩, ⟨1, 2⟩, ⟨2, 2⟩, ⟨3, 2⟩]
      (by simp [List.chain'_cons])⟩

end StockIndicators
